import Mathlib

/-!
Verification of the SprintZeroAnalyzer detection core.

This file gives a shallow embedding, over exact rational arithmetic, of the
bidirectional sprint-end detection engine (`detection.js`) and of the
CompactCurvePayload binary decoder (`curve-decoder.ts`), together with
theorems settling the specified contracts of each component.

JavaScript numbers are modelled as rationals; `Math.round` is modelled by
`jsRound` (floor of x + 1/2, which is what `Math.round` computes); the
absent slots produced by `null` entries are modelled by `Option`.
-/

namespace SprintZero

/-- Model of JavaScript `Math.round`: round half toward positive infinity. -/
def jsRound (q : ℚ) : ℤ := ⌊q + 1/2⌋

/-- An acceleration sample as consumed by the rolling statistics: a
timestamp together with the (precomputed) magnitude. -/
structure AccelSample where
  timestamp : ℚ
  mag : ℚ
deriving DecidableEq, Inhabited

/-- Agreement threshold of the reconciler (1.5 seconds). -/
def AGREEMENT_THRESHOLD : ℚ := 3/2

/-- Port of `computeRollingMean` (detection.js): trailing moving average of
magnitude, window sized as `max 10 (round (windowSeconds * rate))` with
`rate = n / (tEnd - t0)`; a slot is `none` when the trailing window holds
fewer than 5 samples. Returns the rolling series and the rate. -/
def computeRollingMean (accel : List AccelSample) (windowSeconds : ℚ) :
    List (Option ℚ) × ℚ :=
  let n := accel.length
  let t0 := (accel.headD default).timestamp
  let tEnd := (accel.getLastD default).timestamp
  let rate : ℚ := (n : ℚ) / (tEnd - t0)
  let window : ℕ := (max 10 (jsRound (windowSeconds * rate))).toNat
  let mag := accel.map (·.mag)
  let rolling := (List.range n).map (fun (i : ℕ) =>
    let start : ℕ := ((i : ℤ) - window + 1).toNat
    let count : ℕ := i - start + 1
    if count < 5 then none
    else some ((((mag.drop start).take count).sum) / (count : ℚ)))
  (rolling, rate)

/-- Port of `median` (detection.js): sort ascending, take the middle
element, averaging the two central elements for even length. -/
def median (arr : List ℚ) : ℚ :=
  let sorted := arr.insertionSort (· ≤ ·)
  let mid := sorted.length / 2
  if sorted.length % 2 = 0 then (sorted.getD (mid - 1) 0 + sorted.getD mid 0) / 2
  else sorted.getD mid 0

/-- Port of `findSprintLevel` (detection.js): median of the present rolling
values whose timestamp falls in the middle 20%–70% span of the recording;
fixed fallback 5.0 when fewer than 10 such values exist. -/
def findSprintLevel (timestamps : List ℚ) (rolling : List (Option ℚ)) : ℚ :=
  let t0 := timestamps.headD 0
  let duration := timestamps.getLastD 0 - t0
  let midStart := t0 + duration * (2/10)
  let midEnd := t0 + duration * (7/10)
  let midValues := (timestamps.zip rolling).filterMap (fun p =>
    match p.2 with
    | some v => if midStart ≤ p.1 ∧ p.1 ≤ midEnd then some v else none
    | none => none)
  if midValues.length < 10 then 5 else median midValues

/-- Port of `findSprintStart` (detection.js): first present rolling value
exceeding the fixed threshold 2.0; defaults to the first sample. -/
def findSprintStartLoop (timestamps : List ℚ) (rolling : List (Option ℚ)) :
    ℕ → Option (ℚ × ℕ)
  | 0 => none
  | k + 1 =>
    let i := rolling.length - (k + 1)
    match rolling.getD i none with
    | some v =>
      if 2 < v then some (timestamps.getD i 0, i)
      else findSprintStartLoop timestamps rolling k
    | none => findSprintStartLoop timestamps rolling k

def findSprintStart (timestamps : List ℚ) (rolling : List (Option ℚ)) : ℚ × ℕ :=
  match findSprintStartLoop timestamps rolling rolling.length with
  | some r => r
  | none => (timestamps.headD 0, 0)

/-- Inner sustain check of `detectForward`: over the next `sust` slots of
the rolling series, no present value is at or above the threshold. -/
def sustainHolds (rs : List (Option ℚ)) (thr : ℚ) (sust : ℕ) : Bool :=
  (rs.take sust).all (fun o =>
    match o with
    | some w => if w < thr then true else false
    | none => true)

/-- Outer loop of `detectForward`: scan both series in parallel; return the
timestamp of the first slot at or after `searchStart` whose present value is
below `thr` and whose drop is sustained. -/
def fwdScan (thr searchStart : ℚ) (sust : ℕ) :
    List ℚ → List (Option ℚ) → Option ℚ
  | t :: ts, r :: rs =>
    if searchStart ≤ t then
      match r with
      | some v =>
        if v < thr then
          if sustainHolds (r :: rs) thr sust then some t
          else fwdScan thr searchStart sust ts rs
        else fwdScan thr searchStart sust ts rs
      | none => fwdScan thr searchStart sust ts rs
    else fwdScan thr searchStart sust ts rs
  | _, _ => none

/-- Port of `detectForward` (detection.js). -/
def detectForward (timestamps : List ℚ) (rolling : List (Option ℚ))
    (sprintLevel minSprintTime : ℚ) : ℚ × ℚ :=
  let thr := sprintLevel * (9/10)
  let searchStart := timestamps.headD 0 + minSprintTime
  let n := timestamps.length
  let rate : ℚ := (n : ℚ) / (timestamps.getLastD 0 - timestamps.headD 0)
  let sust : ℕ := (max 5 (jsRound ((1/2) * rate))).toNat
  match fwdScan thr searchStart sust timestamps rolling with
  | some t => (t, thr)
  | none => (timestamps.getLastD 0, thr)

/-- Downward loop of `detectBackward`: `bwdLoop ts rs thr n` inspects
indices `n-1, n-2, ..., 0` and returns the timestamp of the first index
whose rolling value is present and at or above `thr`. -/
def bwdLoop (timestamps : List ℚ) (rolling : List (Option ℚ)) (thr : ℚ) :
    ℕ → Option ℚ
  | 0 => none
  | i + 1 =>
    match rolling[i]? with
    | some (some w) =>
      if thr ≤ w then some (timestamps.getD i 0)
      else bwdLoop timestamps rolling thr i
    | _ => bwdLoop timestamps rolling thr i

/-- Port of `detectBackward` (detection.js). -/
def detectBackward (timestamps : List ℚ) (rolling : List (Option ℚ))
    (sprintLevel : ℚ) : ℚ × ℚ :=
  let thr := sprintLevel * (9/10)
  match bwdLoop timestamps rolling thr timestamps.length with
  | some t => (t, thr)
  | none => (timestamps.headD 0, thr)

/-- Result record of the reconciler. -/
structure DecideResult where
  final : ℚ
  decision : String
  gap : ℚ
deriving DecidableEq

/-- Port of `decide` (detection.js): agreement within 1.5 s averages the
two candidates, otherwise the later candidate wins. -/
def decide (forwardTime backwardTime : ℚ) : DecideResult :=
  let gap := |forwardTime - backwardTime|
  if gap ≤ AGREEMENT_THRESHOLD then ⟨(forwardTime + backwardTime) / 2, "agree", gap⟩
  else if forwardTime < backwardTime then ⟨backwardTime, "trust_backward", gap⟩
  else ⟨forwardTime, "trust_forward", gap⟩

/-! ### Reconciler -/

/-- C2: Reconciler decision rules: `gap = |forward − backward|`; a gap of at
most 1.5 s yields `agree` with the average as final time; otherwise
`forward < backward` yields `trust_backward` with final `backward`, and
`backward ≤ forward` yields `trust_forward` with final `forward`.
Concretely, `(10, 12)` gives `trust_backward`/12, `(12, 10)` gives
`trust_forward`/12, and `(10, 11)` gives `agree`/10.5. -/
theorem decide_spec :
    (∀ f b : ℚ, |f - b| ≤ 3/2 →
      decide f b = ⟨(f + b) / 2, "agree", |f - b|⟩)
    ∧ (∀ f b : ℚ, 3/2 < |f - b| → f < b →
      decide f b = ⟨b, "trust_backward", |f - b|⟩)
    ∧ (∀ f b : ℚ, 3/2 < |f - b| → b ≤ f →
      decide f b = ⟨f, "trust_forward", |f - b|⟩)
    ∧ decide 10 12 = ⟨12, "trust_backward", 2⟩
    ∧ decide 12 10 = ⟨12, "trust_forward", 2⟩
    ∧ decide 10 11 = ⟨21/2, "agree", 1⟩ := by
  refine ⟨?_, ?_, ?_, ?_, ?_, ?_⟩
  · intro f b h
    simp [decide, AGREEMENT_THRESHOLD, h]
  · intro f b h hfb
    simp [decide, AGREEMENT_THRESHOLD, not_le.mpr h, hfb]
  · intro f b h hbf
    simp [decide, AGREEMENT_THRESHOLD, not_le.mpr h, not_lt.mpr hbf]
  · norm_num [decide, AGREEMENT_THRESHOLD]
  · norm_num [decide, AGREEMENT_THRESHOLD]
  · norm_num [decide, AGREEMENT_THRESHOLD]

/-- Witness for C2: the three reconciliation rules applied at the concrete
pairs named by the claim. -/
theorem decide_spec_witness :
    ((|(10:ℚ) - 11| ≤ 3/2) ∧ decide 10 11 = ⟨(10 + 11) / 2, "agree", |(10:ℚ) - 11|⟩)
    ∧ ((3/2 < |(10:ℚ) - 12|) ∧ ((10:ℚ) < 12) ∧ decide 10 12 = ⟨12, "trust_backward", |(10:ℚ) - 12|⟩)
    ∧ ((3/2 < |(12:ℚ) - 10|) ∧ ((10:ℚ) ≤ 12) ∧ decide 12 10 = ⟨12, "trust_forward", |(12:ℚ) - 10|⟩) :=
  ⟨⟨by norm_num, decide_spec.1 10 11 (by norm_num)⟩,
   ⟨by norm_num, by norm_num, decide_spec.2.1 10 12 (by norm_num) (by norm_num)⟩,
   ⟨by norm_num, by norm_num, decide_spec.2.2.1 12 10 (by norm_num) (by norm_num)⟩⟩

/-! ### Backward scanner -/

/-- Index `i` of the rolling series holds a present value at or above the
threshold. -/
def Pbwd (rolling : List (Option ℚ)) (thr : ℚ) (i : ℕ) : Prop :=
  ∃ w, rolling[i]? = some (some w) ∧ thr ≤ w

lemma bwdLoop_none (ts : List ℚ) (rolling : List (Option ℚ)) (thr : ℚ)
    (n : ℕ) (h : ∀ i, i < n → ¬ Pbwd rolling thr i) :
    bwdLoop ts rolling thr n = none := by
  induction n with
  | zero => rfl
  | succ k ih =>
    have hrest : ∀ i, i < k → ¬ Pbwd rolling thr i := fun i hi => h i (by omega)
    simp only [bwdLoop]
    cases hk : rolling[k]? with
    | none => exact ih hrest
    | some o =>
      cases o with
      | none => exact ih hrest
      | some w =>
        have hw : ¬ thr ≤ w := fun hle => h k (by omega) ⟨w, hk, hle⟩
        simp only [hw, if_false]
        exact ih hrest

lemma bwdLoop_found (ts : List ℚ) (rolling : List (Option ℚ)) (thr : ℚ)
    (i n : ℕ) (hin : i < n) (hp : Pbwd rolling thr i)
    (hmax : ∀ k, i < k → ¬ Pbwd rolling thr k) :
    bwdLoop ts rolling thr n = some (ts.getD i 0) := by
  induction n with
  | zero => omega
  | succ k ih =>
    rcases Nat.lt_succ_iff_lt_or_eq.mp hin with h | h
    · have hk : ¬ Pbwd rolling thr k := hmax k h
      simp only [bwdLoop]
      cases hrk : rolling[k]? with
      | none => exact ih h
      | some o =>
        cases o with
        | none => exact ih h
        | some w =>
          have hw : ¬ thr ≤ w := fun hle => hk ⟨w, hrk, hle⟩
          simp only [hw, if_false]
          exact ih h
    · subst h
      obtain ⟨w, hw, hle⟩ := hp
      simp only [bwdLoop, hw, if_pos hle]

/-- C3: BackwardScanner contract: with `threshold = sprintLevel × 0.9`,
`detectBackward` returns the timestamp of the last index whose rolling
value is present and at or above the threshold, and the first timestamp
when no such index exists. -/
theorem detectBackward_spec (ts : List ℚ) (rolling : List (Option ℚ))
    (level thr : ℚ) (hlen : rolling.length = ts.length)
    (hthr : thr = level * (9/10)) :
    (∀ i, Pbwd rolling thr i → (∀ k, i < k → ¬ Pbwd rolling thr k) →
        detectBackward ts rolling level = (ts.getD i 0, thr))
    ∧ ((∀ i, ¬ Pbwd rolling thr i) →
        detectBackward ts rolling level = (ts.headD 0, thr)) := by
  subst hthr
  constructor
  · intro i hp hmax
    have hi : i < rolling.length := by
      by_contra hge
      obtain ⟨w, hw, -⟩ := hp
      rw [List.getElem?_eq_none (by omega)] at hw
      exact Option.noConfusion hw
    simp only [detectBackward]
    rw [bwdLoop_found ts rolling _ i ts.length (hlen ▸ hi) hp hmax]
  · intro h
    simp only [detectBackward]
    rw [bwdLoop_none ts rolling _ ts.length (fun i _ => h i)]

/-- Witness for C3: on a concrete curve the last index at or above the
threshold is index 2, so the backward scan returns its timestamp 20. -/
theorem detectBackward_spec_witness :
    detectBackward [0, 10, 20, 30, 40, 100]
      [some 10, some 5, some 10, some 5, some 4, some 3] 10 = (20, 9) := by
  have h := (detectBackward_spec [0, 10, 20, 30, 40, 100]
    [some 10, some 5, some 10, some 5, some 4, some 3] 10 9 rfl (by norm_num)).1 2
    ⟨10, rfl, by norm_num⟩
    (by
      rintro k hk ⟨w, hw, hle⟩
      by_cases h6 : k < 6
      · interval_cases k <;> simp_all <;> subst hw <;> norm_num at hle
      · rw [List.getElem?_eq_none (by simp; omega)] at hw
        exact Option.noConfusion hw)
  simpa using h

/-! ### Forward scanner -/

lemma sustainHolds_iff (rs : List (Option ℚ)) (thr : ℚ) (sust : ℕ) :
    sustainHolds rs thr sust = true ↔
    ∀ j, j < sust → ∀ w, rs[j]? = some (some w) → w < thr := by
  unfold sustainHolds
  rw [List.all_eq_true]
  constructor
  · intro h j hj w hw
    have ht : (rs.take sust)[j]? = some (some w) := by
      rw [List.getElem?_take]
      simp [hj, hw]
    have hmem : some w ∈ rs.take sust := List.mem_iff_getElem?.mpr ⟨j, ht⟩
    simpa using h _ hmem
  · intro h o hmem
    obtain ⟨j, hj⟩ := List.mem_iff_getElem?.mp hmem
    rw [List.getElem?_take] at hj
    by_cases hjs : j < sust
    · rw [if_pos hjs] at hj
      cases o with
      | none => simp
      | some w => simpa using h j hjs w hj
    · rw [if_neg hjs] at hj
      exact Option.noConfusion hj

/-- Index `i` is a qualifying sustained drop for the forward scan: its
timestamp is at or past `searchStart`, its rolling value is present and
below the threshold, and no present rolling value in the next `sust` slots
(clipped to the series end) is at or above the threshold. -/
def Pfwd (ts : List ℚ) (rolling : List (Option ℚ)) (thr searchStart : ℚ)
    (sust : ℕ) (i : ℕ) : Prop :=
  (∃ t, ts[i]? = some t ∧ searchStart ≤ t)
  ∧ (∃ v, rolling[i]? = some (some v) ∧ v < thr)
  ∧ (∀ j, i ≤ j → j < i + sust → ∀ w, rolling[j]? = some (some w) → w < thr)

lemma Pfwd_cons_succ (t : ℚ) (r : Option ℚ) (ts : List ℚ)
    (rolling : List (Option ℚ)) (thr searchStart : ℚ) (sust i : ℕ) :
    Pfwd (t :: ts) (r :: rolling) thr searchStart sust (i + 1) ↔
    Pfwd ts rolling thr searchStart sust i := by
  unfold Pfwd
  refine and_congr (by simp) (and_congr (by simp) ?_)
  constructor
  · intro h j hij hjs w hw
    exact h (j + 1) (by omega) (by omega) w (by simpa using hw)
  · intro h j hij hjs w hw
    obtain ⟨j', rfl⟩ : ∃ j', j = j' + 1 := ⟨j - 1, by omega⟩
    exact h j' (by omega) (by omega) w (by simpa using hw)

lemma Pfwd_cons_zero (t : ℚ) (r : Option ℚ) (ts : List ℚ)
    (rolling : List (Option ℚ)) (thr searchStart : ℚ) (sust : ℕ) :
    Pfwd (t :: ts) (r :: rolling) thr searchStart sust 0 ↔
    (searchStart ≤ t ∧ (∃ v, r = some v ∧ v < thr)
      ∧ sustainHolds (r :: rolling) thr sust = true) := by
  unfold Pfwd
  rw [sustainHolds_iff]
  constructor
  · rintro ⟨⟨t', ht', hst⟩, ⟨v, hv, hlt⟩, hsus⟩
    have h1 : t = t' := by simpa using ht'
    subst h1
    have h2 : r = some v := by simpa using hv
    exact ⟨hst, ⟨v, h2, hlt⟩, fun j hj w hw => hsus j (by omega) (by omega) w hw⟩
  · rintro ⟨hst, ⟨v, hv, hlt⟩, hsus⟩
    exact ⟨⟨t, by simp, hst⟩, ⟨v, by simp [hv], hlt⟩,
      fun j h0 hj w hw => hsus j (by omega) w hw⟩

lemma fwdScan_cons_of_not_head (thr searchStart : ℚ) (sust : ℕ) (t : ℚ)
    (r : Option ℚ) (ts : List ℚ) (rs : List (Option ℚ))
    (hnot : ¬ Pfwd (t :: ts) (r :: rs) thr searchStart sust 0) :
    fwdScan thr searchStart sust (t :: ts) (r :: rs) =
      fwdScan thr searchStart sust ts rs := by
  rw [Pfwd_cons_zero] at hnot
  by_cases hst : searchStart ≤ t
  · cases r with
    | none => simp [fwdScan, hst]
    | some v =>
      by_cases hlt : v < thr
      · have hsusF : sustainHolds (some v :: rs) thr sust = false := by
          rcases Bool.eq_false_or_eq_true (sustainHolds (some v :: rs) thr sust) with htr | hf
          · exact absurd ⟨hst, ⟨v, rfl, hlt⟩, htr⟩ hnot
          · exact hf
        simp [fwdScan, hst, hlt, hsusF]
      · simp [fwdScan, hst, hlt]
  · simp [fwdScan, hst]

lemma fwdScan_cons_of_head (thr searchStart : ℚ) (sust : ℕ) (t : ℚ)
    (r : Option ℚ) (ts : List ℚ) (rs : List (Option ℚ))
    (hhead : Pfwd (t :: ts) (r :: rs) thr searchStart sust 0) :
    fwdScan thr searchStart sust (t :: ts) (r :: rs) = some t := by
  rw [Pfwd_cons_zero] at hhead
  obtain ⟨hst, ⟨v, rfl, hlt⟩, hsus⟩ := hhead
  simp [fwdScan, hst, hlt, hsus]

lemma fwdScan_none (thr searchStart : ℚ) (sust : ℕ) :
    ∀ (ts : List ℚ) (rolling : List (Option ℚ)),
      (∀ i, ¬ Pfwd ts rolling thr searchStart sust i) →
      fwdScan thr searchStart sust ts rolling = none := by
  intro ts
  induction ts with
  | nil => intro rolling _; cases rolling <;> rfl
  | cons t ts ih =>
    intro rolling h
    cases rolling with
    | nil => rfl
    | cons r rs =>
      rw [fwdScan_cons_of_not_head thr searchStart sust t r ts rs (h 0)]
      exact ih rs (fun i hi => h (i + 1) ((Pfwd_cons_succ ..).mpr hi))

lemma fwdScan_found (thr searchStart : ℚ) (sust : ℕ) :
    ∀ (ts : List ℚ) (rolling : List (Option ℚ)) (i : ℕ),
      Pfwd ts rolling thr searchStart sust i →
      (∀ k, k < i → ¬ Pfwd ts rolling thr searchStart sust k) →
      fwdScan thr searchStart sust ts rolling = ts[i]? := by
  intro ts
  induction ts with
  | nil =>
    intro rolling i hp _
    obtain ⟨⟨t, ht, -⟩, -, -⟩ := hp
    simp at ht
  | cons t ts ih =>
    intro rolling i hp hmin
    cases rolling with
    | nil =>
      obtain ⟨-, ⟨v, hv, -⟩, -⟩ := hp
      simp at hv
    | cons r rs =>
      cases i with
      | zero =>
        rw [fwdScan_cons_of_head thr searchStart sust t r ts rs hp]
        simp
      | succ i =>
        rw [fwdScan_cons_of_not_head thr searchStart sust t r ts rs
          (hmin 0 (by omega))]
        rw [ih rs i ((Pfwd_cons_succ ..).mp hp)
          (fun k hk hc => hmin (k + 1) (by omega) ((Pfwd_cons_succ ..).mpr hc))]
        simp

/-- C1: ForwardScanner contract: for a curve with at least two samples and
increasing endpoints, with `threshold = sprintLevel × 0.9`,
`searchStart = t_first + minSprintTime` and
`sustainSamples = max(5, round(0.5 × rate))`, `detectForward` returns the
timestamp of the first index that is a sustained drop (`Pfwd`), and the
last timestamp together with the threshold when no such index exists.
Since `Pfwd` demands that no present value within `sustainSamples` slots
recovers to the threshold, a transient dip that recovers does not trigger
detection. -/
theorem detectForward_spec (ts : List ℚ) (rolling : List (Option ℚ))
    (level minT thr searchStart : ℚ) (sust : ℕ)
    (hlen : rolling.length = ts.length) (h2 : 2 ≤ ts.length)
    (hord : ts.headD 0 < ts.getLastD 0)
    (hthr : thr = level * (9/10))
    (hss : searchStart = ts.headD 0 + minT)
    (hsust : (sust : ℤ) =
      max 5 (jsRound ((1/2) * ((ts.length : ℚ) / (ts.getLastD 0 - ts.headD 0))))) :
    (∀ i, Pfwd ts rolling thr searchStart sust i →
        (∀ k, k < i → ¬ Pfwd ts rolling thr searchStart sust k) →
        detectForward ts rolling level minT = (ts.getD i 0, thr))
    ∧ ((∀ i, ¬ Pfwd ts rolling thr searchStart sust i) →
        detectForward ts rolling level minT = (ts.getLastD 0, thr)) := by
  subst hthr hss
  have hsn : (max 5 (jsRound ((1/2) *
      ((ts.length : ℚ) / (ts.getLastD 0 - ts.headD 0))))).toNat = sust := by
    rw [← hsust]
    exact Int.toNat_natCast sust
  constructor
  · intro i hp hmax
    obtain ⟨t', ht', -⟩ := hp.1
    simp only [detectForward, hsn]
    rw [fwdScan_found _ _ _ ts rolling i hp hmax, ht']
    rw [List.getD_eq_getElem?_getD, ht']
    rfl
  · intro h
    simp only [detectForward, hsn]
    rw [fwdScan_none _ _ _ ts rolling h]

/-- Witness for C1: a concrete curve with a one-sample transient dip at
index 1 (which recovers at index 2 and so is skipped) and a sustained drop
starting at index 3; the forward scan reports timestamp 30. -/
theorem detectForward_spec_witness :
    detectForward [0, 10, 20, 30, 40, 100]
      [some 10, some 5, some 10, some 5, some 4, some 3] 10 5 = (30, 9) := by
  have h := (detectForward_spec [0, 10, 20, 30, 40, 100]
    [some 10, some 5, some 10, some 5, some 4, some 3] 10 5 9 5 5
    rfl (by norm_num) (by norm_num) (by norm_num) (by norm_num)
    (by norm_num [jsRound])).1 3
    ⟨⟨30, rfl, by norm_num⟩, ⟨5, rfl, by norm_num⟩, by
      intro j h3 h8 w hw
      interval_cases j <;> simp_all <;> subst hw <;> norm_num⟩
    (by
      rintro k hk ⟨⟨t, ht, hst⟩, ⟨v, hv, hlt⟩, hsus⟩
      interval_cases k
      · simp at ht
        subst ht
        norm_num at hst
      · have h10 := hsus 2 (by norm_num) (by norm_num) 10 rfl
        norm_num at h10
      · simp at hv
        subst hv
        norm_num at hlt)
  simpa using h

/-! ### Rolling statistics -/

/-- Start of the trailing window at index `i`: `max 0 (i - window + 1)`
computed, as in the source, in integer arithmetic. -/
def winStart (window i : ℕ) : ℕ := ((i : ℤ) - window + 1).toNat

/-- Number of samples in the trailing window `[winStart, i]`. -/
def winCount (window i : ℕ) : ℕ := i - winStart window i + 1

lemma sum_take_drop (l : List ℚ) (a : ℕ) :
    ∀ k : ℕ, a + k ≤ l.length →
      ((l.drop a).take k).sum = ∑ j in Finset.range k, l.getD (a + j) 0 := by
  intro k
  induction k with
  | zero => simp
  | succ m ih =>
    intro hk
    rw [List.take_succ, List.sum_append, ih (by omega), Finset.sum_range_succ]
    congr 1
    rw [List.getElem?_drop, List.getElem?_eq_getElem (show a + m < l.length by omega)]
    simp [List.getD_eq_getElem?_getD,
      List.getElem?_eq_getElem (show a + m < l.length by omega)]

lemma sum_const_list (l : List ℚ) (c : ℚ) (h : ∀ x ∈ l, x = c) :
    l.sum = l.length * c := by
  induction l with
  | nil => simp
  | cons a t ih => simp_all [add_mul, add_comm]

lemma magList_getD (accel : List AccelSample) (j : ℕ) (hj : j < accel.length) :
    (accel.map (·.mag)).getD j 0 = (accel.getD j default).mag := by
  rw [List.getD_eq_getElem?_getD, List.getD_eq_getElem?_getD, List.getElem?_map,
    List.getElem?_eq_getElem hj]
  simp

lemma slice_sum_eq (accel : List AccelSample) (window i : ℕ)
    (hw : 1 ≤ window) (hi : i < accel.length) :
    (((accel.map (·.mag)).drop (winStart window i)).take (winCount window i)).sum
      = ∑ j in Finset.Icc (winStart window i) i, (accel.getD j default).mag := by
  have ha : winStart window i ≤ i := by unfold winStart; omega
  have hcnt : winCount window i = i + 1 - winStart window i := by unfold winCount; omega
  rw [← Nat.Ico_succ_right, Finset.sum_Ico_eq_sum_range]
  rw [sum_take_drop _ _ _ (by simp [hcnt]; omega), hcnt]
  exact Finset.sum_congr rfl (fun j hj => by
    have hji : winStart window i + j < accel.length := by
      simp only [Finset.mem_range] at hj
      omega
    exact magList_getD accel _ hji)

/-- C4: RollingStatistics contract: on a curve of `n ≥ 1` samples with
increasing endpoints, with `rate = n / (t_last − t_first)` and
`window = max 10 (round (windowSeconds × rate))`, the output has length
exactly `n`; the slot at `i` is absent exactly when the trailing window
`[max 0 (i−window+1), i]` holds fewer than 5 samples and otherwise equals
the arithmetic mean of magnitude over that window; every present slot has
at least 5 trailing samples; and on a constant-magnitude curve every
present value equals that constant exactly. -/
theorem computeRollingMean_spec (accel : List AccelSample)
    (windowSeconds rate : ℚ) (window : ℕ)
    (h1 : 1 ≤ accel.length)
    (hord : (accel.headD default).timestamp < (accel.getLastD default).timestamp)
    (hrate : rate = (accel.length : ℚ) /
      ((accel.getLastD default).timestamp - (accel.headD default).timestamp))
    (hwin : (window : ℤ) = max 10 (jsRound (windowSeconds * rate))) :
    (computeRollingMean accel windowSeconds).2 = rate
    ∧ (∀ i, ((winStart window i : ℕ) : ℤ) = max 0 ((i : ℤ) - window + 1))
    ∧ ((computeRollingMean accel windowSeconds).1).length = accel.length
    ∧ (∀ i, i < accel.length →
        (((computeRollingMean accel windowSeconds).1)[i]? = some none ↔
          winCount window i < 5))
    ∧ (∀ i, i < accel.length → 5 ≤ winCount window i →
        ((computeRollingMean accel windowSeconds).1)[i]? =
          some (some ((∑ j in Finset.Icc (winStart window i) i,
            (accel.getD j default).mag) / ((winCount window i : ℕ) : ℚ))))
    ∧ (∀ (i : ℕ) (v : ℚ),
        ((computeRollingMean accel windowSeconds).1)[i]? = some (some v) →
        5 ≤ winCount window i)
    ∧ (∀ c : ℚ, (∀ s ∈ accel, s.mag = c) →
        ∀ (i : ℕ) (v : ℚ),
          ((computeRollingMean accel windowSeconds).1)[i]? = some (some v) →
          v = c) := by
  subst hrate
  have hw10 : 10 ≤ window := by
    have h := hwin ▸ le_max_left 10 (jsRound (windowSeconds *
      ((accel.length : ℚ) /
        ((accel.getLastD default).timestamp - (accel.headD default).timestamp))))
    omega
  have hwn : (max 10 (jsRound (windowSeconds * ((accel.length : ℚ) /
      ((accel.getLastD default).timestamp -
        (accel.headD default).timestamp))))).toNat = window := by
    rw [← hwin]
    exact Int.toNat_natCast window
  have hget : ∀ i, i < accel.length →
      ((computeRollingMean accel windowSeconds).1)[i]? =
        some (if winCount window i < 5 then none
          else some (((((accel.map (·.mag)).drop (winStart window i)).take
            (winCount window i)).sum) / ((winCount window i : ℕ) : ℚ))) := by
    intro i hi
    simp only [computeRollingMean, List.getElem?_map, List.getElem?_range, hi,
      if_pos, Option.map_some, hwn]
    rfl
  have hlen : ((computeRollingMean accel windowSeconds).1).length = accel.length := by
    simp [computeRollingMean]
  have hinrange : ∀ (i : ℕ) (v : Option ℚ),
      ((computeRollingMean accel windowSeconds).1)[i]? = some v →
      i < accel.length := by
    intro i v hv
    by_contra hge
    rw [List.getElem?_eq_none (by omega)] at hv
    exact Option.noConfusion hv
  refine ⟨rfl, ?_, hlen, ?_, ?_, ?_, ?_⟩
  · intro i
    unfold winStart
    rw [Int.toNat_eq_max, max_comm]
  · intro i hi
    rw [hget i hi]
    by_cases hc : winCount window i < 5
    · simp [hc]
    · simp [hc]
  · intro i hi hc
    rw [hget i hi, if_neg (by omega), slice_sum_eq accel window i (by omega) hi]
  · intro i v hv
    have hi := hinrange i (some v) hv
    rw [hget i hi] at hv
    by_cases hc : winCount window i < 5
    · rw [if_pos hc] at hv
      simp at hv
    · omega
  · intro c hc i v hv
    have hi := hinrange i (some v) hv
    rw [hget i hi] at hv
    by_cases hcnt : winCount window i < 5
    · rw [if_pos hcnt] at hv
      simp at hv
    · rw [if_neg hcnt] at hv
      simp only [Option.some.injEq] at hv
      have ha : winStart window i ≤ i := by unfold winStart; omega
      have hallc : ∀ x ∈ ((accel.map (·.mag)).drop (winStart window i)).take
          (winCount window i), x = c := by
        intro x hx
        have hx2 := List.mem_of_mem_drop (List.mem_of_mem_take hx)
        obtain ⟨s, hs, rfl⟩ := List.mem_map.mp hx2
        exact hc s hs
      have hslen : (((accel.map (·.mag)).drop (winStart window i)).take
          (winCount window i)).length = winCount window i := by
        simp only [List.length_take, List.length_drop, List.length_map]
        unfold winCount at *
        omega
      rw [sum_const_list _ c hallc, hslen] at hv
      have hne : ((winCount window i : ℕ) : ℚ) ≠ 0 := by
        rw [Nat.cast_ne_zero]
        omega
      have heq : ((winCount window i : ℕ) : ℚ) * c /
          ((winCount window i : ℕ) : ℚ) = c := by
        field_simp
      rw [heq] at hv
      exact hv.symm

/-- Witness for C4: a constant-magnitude curve of 6 samples at rate 6/5;
the window is 10, slots 0–3 are absent and slots 4–5 equal the constant. -/
theorem computeRollingMean_spec_witness :
    (computeRollingMean ((List.range 6).map (fun (k : ℕ) => (⟨(k : ℚ), 7⟩ : AccelSample))) 1).1.length = 6
    ∧ ((computeRollingMean ((List.range 6).map (fun (k : ℕ) => (⟨(k : ℚ), 7⟩ : AccelSample))) 1).1[3]? =
        some none ↔ winCount 10 3 < 5)
    ∧ (∀ v, (computeRollingMean ((List.range 6).map (fun (k : ℕ) => (⟨(k : ℚ), 7⟩ : AccelSample))) 1).1[4]? =
        some (some v) → v = 7) := by
  have hlen : ((List.range 6).map (fun (k : ℕ) => (⟨(k : ℚ), 7⟩ : AccelSample))).length = 6 := by
    simp
  have h := computeRollingMean_spec ((List.range 6).map (fun (k : ℕ) => (⟨(k : ℚ), 7⟩ : AccelSample)))
    1 (6/5) 10
    (by simp)
    (by norm_num [List.range_succ])
    (by norm_num [List.range_succ])
    (by norm_num [jsRound])
  refine ⟨by rw [h.2.2.1, hlen], h.2.2.2.1 3 (by omega), ?_⟩
  intro v hv
  exact h.2.2.2.2.2.2 7 (by
    intro s hs
    simp only [List.mem_map] at hs
    obtain ⟨k, -, rfl⟩ := hs
    rfl) 4 v hv

/-! ### Level estimator -/

/-- Specification-side description of the mid-section collection: the
present rolling values whose timestamp lies in `[midStart, midEnd]`,
listed by index. -/
def midSection (ts : List ℚ) (rolling : List (Option ℚ))
    (midStart midEnd : ℚ) : List ℚ :=
  (List.range ts.length).filterMap (fun i =>
    match rolling[i]? with
    | some (some v) =>
      if midStart ≤ ts.getD i 0 ∧ ts.getD i 0 ≤ midEnd then some v else none
    | _ => none)

lemma midSection_cons (t : ℚ) (r : Option ℚ) (ts : List ℚ)
    (rs : List (Option ℚ)) (a b : ℚ) :
    midSection (t :: ts) (r :: rs) a b =
      (match r with
        | some v => if a ≤ t ∧ t ≤ b then some v else none
        | none => none).toList ++ midSection ts rs a b := by
  cases r with
  | none =>
    simp only [midSection, List.length_cons, List.range_succ_eq_map,
      List.filterMap_cons, List.filterMap_map, List.getElem?_cons_zero,
      List.getD_cons_zero, Option.toList, List.nil_append]
    apply List.filterMap_congr
    intro i _
    simp [Function.comp, List.getD_cons_succ]
  | some v =>
    by_cases hab : a ≤ t ∧ t ≤ b
    · simp only [midSection, List.length_cons, List.range_succ_eq_map,
        List.filterMap_cons, List.filterMap_map, List.getElem?_cons_zero,
        List.getD_cons_zero, hab, and_self, if_pos, Option.toList,
        List.cons_append, List.nil_append, List.cons.injEq, true_and]
      apply List.filterMap_congr
      intro i _
      simp [Function.comp, List.getD_cons_succ]
    · simp only [midSection, List.length_cons, List.range_succ_eq_map,
        List.filterMap_cons, List.filterMap_map, List.getElem?_cons_zero,
        List.getD_cons_zero, hab, if_neg, if_false, Option.toList,
        List.nil_append]
      apply List.filterMap_congr
      intro i _
      simp [Function.comp, List.getD_cons_succ]

lemma midValues_eq : ∀ (ts : List ℚ) (rolling : List (Option ℚ)) (a b : ℚ),
    rolling.length = ts.length →
    (ts.zip rolling).filterMap (fun p =>
      match p.2 with
      | some v => if a ≤ p.1 ∧ p.1 ≤ b then some v else none
      | none => none) = midSection ts rolling a b := by
  intro ts
  induction ts with
  | nil =>
    intro rolling a b _
    simp [midSection]
  | cons t ts ih =>
    intro rolling a b h
    cases rolling with
    | nil => simp at h
    | cons r rs =>
      rw [midSection_cons]
      simp only [List.zip_cons_cons, List.filterMap_cons]
      cases r with
      | none => simpa using ih rs a b (by simpa using h)
      | some v =>
        by_cases hab : a ≤ t ∧ t ≤ b
        · simp [hab, ih rs a b (by simpa using h)]
        · simp [hab, ih rs a b (by simpa using h)]

/-- C5: LevelEstimator contract: with `duration = t_last − t_first`,
`findSprintLevel` collects the present rolling values whose timestamp lies
in `[t_first + 0.2·duration, t_first + 0.7·duration]`; with fewer than 10
such values it returns the fallback 5.0, otherwise their median, where an
even-count median averages the two central values of the sorted
collection. -/
theorem findSprintLevel_spec (ts : List ℚ) (rolling : List (Option ℚ))
    (midStart midEnd : ℚ) (m : List ℚ)
    (hlen : rolling.length = ts.length) (hne : ts ≠ [])
    (hms : midStart = ts.headD 0 + (ts.getLastD 0 - ts.headD 0) * (2/10))
    (hme : midEnd = ts.headD 0 + (ts.getLastD 0 - ts.headD 0) * (7/10))
    (hm : m = midSection ts rolling midStart midEnd) :
    (m.length < 10 → findSprintLevel ts rolling = 5)
    ∧ (10 ≤ m.length → ∃ s : List ℚ, m.Perm s ∧ s.Sorted (· ≤ ·)
        ∧ findSprintLevel ts rolling =
          if m.length % 2 = 0 then
            (s.getD (m.length / 2 - 1) 0 + s.getD (m.length / 2) 0) / 2
          else s.getD (m.length / 2) 0) := by
  subst hms hme hm
  have heq := midValues_eq ts rolling
    (ts.headD 0 + (ts.getLastD 0 - ts.headD 0) * (2/10))
    (ts.headD 0 + (ts.getLastD 0 - ts.headD 0) * (7/10)) hlen
  constructor
  · intro h
    simp only [findSprintLevel, heq]
    rw [if_pos h]
  · intro h
    refine ⟨(midSection ts rolling _ _).insertionSort (· ≤ ·),
      (List.perm_insertionSort _ _).symm, List.sorted_insertionSort _ _, ?_⟩
    simp only [findSprintLevel, heq]
    rw [if_neg (by omega)]
    have hl : ((midSection ts rolling
        (ts.headD 0 + (ts.getLastD 0 - ts.headD 0) * (2/10))
        (ts.headD 0 + (ts.getLastD 0 - ts.headD 0) * (7/10))).insertionSort
          (· ≤ ·)).length =
        (midSection ts rolling
          (ts.headD 0 + (ts.getLastD 0 - ts.headD 0) * (2/10))
          (ts.headD 0 + (ts.getLastD 0 - ts.headD 0) * (7/10))).length :=
      (List.perm_insertionSort _ _).length_eq
    simp only [median, hl]

/-- Witness for C5: a two-sample curve whose mid-section is empty, hitting
the fallback value 5. -/
theorem findSprintLevel_spec_witness :
    findSprintLevel [0, 1] [some 1, some 1] = 5 := by
  have hm : midSection [(0:ℚ), 1] [some 1, some 1] (1/5) (7/10) = [] := by
    norm_num [midSection, List.range_succ]
  exact (findSprintLevel_spec [0, 1] [some 1, some 1] (1/5) (7/10) []
    rfl (by simp) (by norm_num) (by norm_num) hm.symm).1 (by norm_num)

/-! ### Pipeline orchestrator -/

/-- A raw decoded curve point `{timestamp, x, y, z}`. -/
structure RawPoint where
  timestamp : ℚ
  x : ℚ
  y : ℚ
  z : ℚ
deriving DecidableEq, Inhabited

/-- A sprint record as seen by the orchestrator: the two optional curve
payloads (already decoded from their base64/JSON transport) and the
optional distance. -/
structure Sprint where
  accelerationCurve : Option (List RawPoint)
  gyroscopeCurve : Option (List RawPoint)
  distance : Option ℚ
deriving DecidableEq

/-- A session: a date string and its sprint records. -/
structure Session where
  date : String
  sprints : List Sprint
deriving DecidableEq

/-- A parsed backup file. -/
structure FileData where
  sessions : List Session
deriving DecidableEq

/-- An entry collected by `getSprintsWithCurves`. -/
structure SprintEntry where
  date : String
  distance : ℚ
  sprint : Sprint
deriving DecidableEq

/-- Port of `getSprintsWithCurves` (detection.js): every sprint of every
session that carries both curve payloads, with the session date truncated
to 10 characters and a missing distance defaulted to 0. -/
def getSprintsWithCurves (data : FileData) : List SprintEntry :=
  data.sessions.flatMap (fun sess =>
    sess.sprints.filterMap (fun sp =>
      if sp.accelerationCurve.isSome ∧ sp.gyroscopeCurve.isSome then
        some ⟨sess.date.take 10, sp.distance.getD 0, sp⟩
      else none))

/-- Port of the accelerometer half of `loadSprintData` (detection.js):
sort the decoded points by timestamp and derive the magnitude. The square
root of JavaScript is abstracted by the parameter `sqrtQ`, since exact
square roots leave the rationals. -/
def loadAccel (sqrtQ : ℚ → ℚ) (sp : Sprint) : Option (List AccelSample) :=
  sp.accelerationCurve.map (fun raw =>
    (raw.insertionSort (fun a b => a.timestamp ≤ b.timestamp)).map
      (fun d => ⟨d.timestamp, sqrtQ (d.x^2 + d.y^2 + d.z^2)⟩))

/-- Port of the `MIN_TIMES` table with the `?? 5` fallback. -/
def minTimeFor (dist : ℚ) : ℚ :=
  if dist = 60 then 3
  else if dist = 70 then 4
  else if dist = 100 then 5
  else if dist = 200 then 15
  else if dist = 290 then 25
  else if dist = 400 then 40
  else 5

/-- The analysis fields of one emitted result record (the claims concern
these fields; passthrough metadata and plot arrays are omitted). -/
structure AnalysisResult where
  index : ℕ
  date : String
  distance : ℚ
  fwdDur : ℚ
  bwdDur : ℚ
  finalDur : ℚ
  gap : ℚ
  decision : String
deriving DecidableEq

/-- Loop body of `analyzeData` for the record at position `i` of the
filtered list: skip when the loaded acceleration curve is missing or holds
fewer than 100 samples, otherwise run the full detection pipeline. -/
def analyzeOne (sqrtQ : ℚ → ℚ) (i : ℕ) (e : SprintEntry) :
    Option AnalysisResult :=
  match loadAccel sqrtQ e.sprint with
  | none => none
  | some accel =>
    if accel.length < 100 then none
    else
      let timestamps := accel.map (·.timestamp)
      let rolling := (computeRollingMean accel 1).1
      let sprintLevel := findSprintLevel timestamps rolling
      let sprintStart := (findSprintStart timestamps rolling).1
      let fwd := detectForward timestamps rolling sprintLevel (minTimeFor e.distance)
      let bwd := detectBackward timestamps rolling sprintLevel
      let d := decide fwd.1 bwd.1
      some ⟨i + 1, e.date, e.distance, fwd.1 - sprintStart, bwd.1 - sprintStart,
        d.final - sprintStart, d.gap, d.decision⟩

/-- The indexed loop of `analyzeData`: a record that is skipped consumes
its index but emits nothing, and the loop continues. -/
def analyzeLoop (sqrtQ : ℚ → ℚ) : ℕ → List SprintEntry → List AnalysisResult
  | _, [] => []
  | i, e :: rest =>
    match analyzeOne sqrtQ i e with
    | some r => r :: analyzeLoop sqrtQ (i + 1) rest
    | none => analyzeLoop sqrtQ (i + 1) rest

/-- Port of `analyzeData` (detection.js): filter to distance ≥ 60 m and
run the indexed loop. -/
def analyzeData (sqrtQ : ℚ → ℚ) (data : FileData) : List AnalysisResult :=
  analyzeLoop sqrtQ 0 ((getSprintsWithCurves data).filter
    (fun e => if 60 ≤ e.distance then true else false))

/-- Specification-side description of the records that are candidates for
analysis: both curve payloads present and distance at least 60 m. -/
def eligibleSprints (data : FileData) : List SprintEntry :=
  data.sessions.flatMap (fun sess =>
    (sess.sprints.filter (fun sp =>
      if sp.accelerationCurve.isSome ∧ sp.gyroscopeCurve.isSome
          ∧ 60 ≤ sp.distance.getD 0 then true else false)).map
      (fun sp => ⟨sess.date.take 10, sp.distance.getD 0, sp⟩))

lemma session_entries_eq (date : String) (l : List Sprint) :
    (l.filterMap (fun sp =>
      if sp.accelerationCurve.isSome ∧ sp.gyroscopeCurve.isSome then
        some (⟨date, sp.distance.getD 0, sp⟩ : SprintEntry)
      else none)).filter (fun e => if 60 ≤ e.distance then true else false) =
    (l.filter (fun sp =>
      if sp.accelerationCurve.isSome ∧ sp.gyroscopeCurve.isSome
          ∧ 60 ≤ sp.distance.getD 0 then true else false)).map
      (fun sp => ⟨date, sp.distance.getD 0, sp⟩) := by
  induction l with
  | nil => rfl
  | cons sp l ih =>
    simp only [List.filterMap_cons, List.filter_cons]
    by_cases hA : sp.accelerationCurve.isSome ∧ sp.gyroscopeCurve.isSome
    · by_cases hD : (60:ℚ) ≤ sp.distance.getD 0
      · simpa [hA, hD] using ih
      · simpa [hA, hD] using ih
    · have hq : ¬(sp.accelerationCurve.isSome ∧ sp.gyroscopeCurve.isSome
          ∧ 60 ≤ sp.distance.getD 0) := fun h => hA ⟨h.1, h.2.1⟩
      simpa [hA, hq] using ih

lemma filter_getSprints_eq (data : FileData) :
    (getSprintsWithCurves data).filter
      (fun e => if 60 ≤ e.distance then true else false) =
    eligibleSprints data := by
  unfold getSprintsWithCurves eligibleSprints
  rw [List.filter_flatMap]
  exact congrArg (fun f => data.sessions.flatMap f)
    (funext (fun sess => session_entries_eq (sess.date.take 10) sess.sprints))

lemma analyzeLoop_eq_enumFrom (sqrtQ : ℚ → ℚ) :
    ∀ (l : List SprintEntry) (i : ℕ),
      analyzeLoop sqrtQ i l =
        (l.enumFrom i).filterMap (fun p => analyzeOne sqrtQ p.1 p.2) := by
  intro l
  induction l with
  | nil => intro i; rfl
  | cons e rest ih =>
    intro i
    simp only [analyzeLoop, List.enumFrom, List.filterMap_cons]
    cases h : analyzeOne sqrtQ i e with
    | some r => simp [h, ih]
    | none => simp [h, ih]

/-- C8: Orchestrator gating and skip policy: `analyzeData` examines exactly
the sprint records with both curve payloads present and distance ≥ 60 m; a
record whose loaded acceleration curve has fewer than 100 samples is
skipped without aborting the batch (the loop is an indexed `filterMap`, so
the remaining records are still processed); every analyzed record runs the
forward scan with the distance-table minimum sprint time; the table maps
200 to 15 and any unlisted distance such as 5000 to the fallback 5. -/
theorem analyzeData_spec :
    (∀ (sqrtQ : ℚ → ℚ) (data : FileData),
      analyzeData sqrtQ data =
        (eligibleSprints data).enum.filterMap
          (fun p => analyzeOne sqrtQ p.1 p.2))
    ∧ (∀ (sqrtQ : ℚ → ℚ) (i : ℕ) (e : SprintEntry),
        (analyzeOne sqrtQ i e).isSome =
          (match e.sprint.accelerationCurve with
            | some raw => if 100 ≤ raw.length then true else false
            | none => false))
    ∧ (∀ (sqrtQ : ℚ → ℚ) (i : ℕ) (e : SprintEntry),
        (analyzeOne sqrtQ i e).map (fun r => r.fwdDur) =
          (loadAccel sqrtQ e.sprint).bind (fun accel =>
            if accel.length < 100 then none
            else some ((detectForward (accel.map (·.timestamp))
                (computeRollingMean accel 1).1
                (findSprintLevel (accel.map (·.timestamp))
                  (computeRollingMean accel 1).1)
                (minTimeFor e.distance)).1
              - (findSprintStart (accel.map (·.timestamp))
                  (computeRollingMean accel 1).1).1)))
    ∧ minTimeFor 200 = 15
    ∧ minTimeFor 5000 = 5 := by
  refine ⟨?_, ?_, ?_, ?_, ?_⟩
  · intro sqrtQ data
    unfold analyzeData
    rw [filter_getSprints_eq, analyzeLoop_eq_enumFrom]
    rfl
  · intro sqrtQ i e
    unfold analyzeOne loadAccel
    cases hac : e.sprint.accelerationCurve with
    | none => simp
    | some raw =>
      have hlen : ((raw.insertionSort
          (fun a b => a.timestamp ≤ b.timestamp)).map
          (fun d => (⟨d.timestamp, sqrtQ (d.x^2 + d.y^2 + d.z^2)⟩ :
            AccelSample))).length = raw.length := by
        rw [List.length_map, List.length_insertionSort]
      by_cases h : raw.length < 100
      · simp [hlen, h, not_le.mpr h]
      · simp [hlen, h, not_lt.mp h]
  · intro sqrtQ i e
    unfold analyzeOne
    cases hac : loadAccel sqrtQ e.sprint with
    | none => rfl
    | some accel =>
      by_cases h : accel.length < 100
      · simp [h]
      · simp [h]
  · norm_num [minTimeFor]
  · norm_num [minTimeFor]

/-! ### Running-sum refinement of the rolling mean -/

lemma slice_sum_eq_q (l : List ℚ) (window i : ℕ)
    (hw : 1 ≤ window) (hi : i < l.length) :
    ((l.drop (winStart window i)).take (winCount window i)).sum
      = ∑ j in Finset.Icc (winStart window i) i, l.getD j 0 := by
  have ha : winStart window i ≤ i := by unfold winStart; omega
  have hcnt : winCount window i = i + 1 - winStart window i := by
    unfold winCount
    omega
  rw [← Nat.Ico_succ_right, Finset.sum_Ico_eq_sum_range]
  rw [sum_take_drop _ _ _ (by omega), hcnt]

lemma winStart_zero (window : ℕ) (hw : 1 ≤ window) : winStart window 0 = 0 := by
  unfold winStart
  omega

lemma winStart_small (window i : ℕ) (hi : i < window) : winStart window i = 0 := by
  unfold winStart
  omega

lemma winStart_large (window i : ℕ) (hi : window ≤ i) :
    winStart window i = i - window + 1 := by
  unfold winStart
  omega

/-- One step of the sliding-window sum: the trailing-window sum at `i`
equals the one at `i - 1` plus the entering sample minus the leaving
sample (when the window is full). -/
lemma windowSum_step (l : List ℚ) (window i : ℕ)
    (hw : 1 ≤ window) (hi : i < l.length) :
    ((l.drop (winStart window i)).take (winCount window i)).sum
      = (if i = 0 then 0
          else ((l.drop (winStart window (i - 1))).take
            (winCount window (i - 1))).sum)
        + l.getD i 0
        - (if window ≤ i then l.getD (i - window) 0 else 0) := by
  rcases Nat.eq_zero_or_pos i with h0 | hpos
  · subst h0
    rw [slice_sum_eq_q l window 0 hw hi, winStart_zero window hw]
    simp [Nat.not_le.mpr hw]
  · obtain ⟨i', rfl⟩ : ∃ i', i = i' + 1 := ⟨i - 1, by omega⟩
    rw [slice_sum_eq_q l window (i' + 1) hw hi]
    simp only [Nat.add_sub_cancel, if_neg (Nat.succ_ne_zero i')]
    rw [slice_sum_eq_q l window i' hw (by omega)]
    by_cases hfull : window ≤ i' + 1
    · rw [if_pos hfull, winStart_large window (i' + 1) hfull]
      have hstep : Finset.Icc (i' + 1 - window + 1) (i' + 1)
          = insert (i' + 1) (Finset.Icc (i' + 1 - window + 1) i') := by
        ext x
        simp only [Finset.mem_Icc, Finset.mem_insert]
        omega
      rw [hstep, Finset.sum_insert (by simp [Finset.mem_Icc])]
      by_cases hfull2 : window ≤ i'
      · rw [winStart_large window i' hfull2]
        have hdrop : Finset.Icc (i' - window + 1) i'
            = insert (i' - window + 1) (Finset.Icc (i' + 1 - window + 1) i') := by
          ext x
          simp only [Finset.mem_Icc, Finset.mem_insert]
          omega
        rw [hdrop, Finset.sum_insert (by simp [Finset.mem_Icc]; omega)]
        have hidx : i' - window + 1 = i' + 1 - window := by omega
        rw [hidx]
        ring
      · have hweq : window = i' + 1 := by omega
        rw [winStart_small window i' (by omega)]
        have hidx : i' + 1 - window + 1 = 1 := by omega
        have hidx2 : i' + 1 - window = 0 := by omega
        rw [hidx, hidx2]
        have hdrop : Finset.Icc 0 i' = insert 0 (Finset.Icc 1 i') := by
          ext x
          simp only [Finset.mem_Icc, Finset.mem_insert]
          omega
        rw [hdrop, Finset.sum_insert (by simp [Finset.mem_Icc])]
        ring
    · rw [if_neg hfull, winStart_small window (i' + 1) (by omega),
        winStart_small window i' (by omega)]
      have hstep : Finset.Icc 0 (i' + 1) = insert (i' + 1) (Finset.Icc 0 i') := by
        ext x
        simp only [Finset.mem_Icc, Finset.mem_insert]
        omega
      rw [hstep, Finset.sum_insert (by simp [Finset.mem_Icc])]
      ring

lemma winCount_eq_min (window i : ℕ) (hw : 1 ≤ window) :
    winCount window i = min (i + 1) window := by
  unfold winCount winStart
  omega

/-- Modelled from the spec: the O(n) running-sum scheme for the trailing
moving average: one pass with an accumulator to which the entering sample
is added and from which, once the window is full, the leaving sample is
subtracted. -/
def runningAux (mag : List ℚ) (window : ℕ) :
    ℕ → ℕ → ℚ → List (Option ℚ)
  | 0, _, _ => []
  | fuel + 1, i, sum =>
    let sum2 := sum + mag.getD i 0
    let sum3 := if window ≤ i then sum2 - mag.getD (i - window) 0 else sum2
    let count := min (i + 1) window
    (if count < 5 then none else some (sum3 / (count : ℚ)))
      :: runningAux mag window fuel (i + 1) sum3

/-- Modelled from the spec: the rolling mean computed with the running
sum; same rate and window size as `computeRollingMean`. -/
def rollingRunningSum (accel : List AccelSample) (windowSeconds : ℚ) :
    List (Option ℚ) :=
  let n := accel.length
  let t0 := (accel.headD default).timestamp
  let tEnd := (accel.getLastD default).timestamp
  let rate : ℚ := (n : ℚ) / (tEnd - t0)
  let window : ℕ := (max 10 (jsRound (windowSeconds * rate))).toNat
  runningAux (accel.map (·.mag)) window n 0 0

lemma runningAux_eq (mag : List ℚ) (window : ℕ) (hw : 1 ≤ window) :
    ∀ (fuel i : ℕ) (sum : ℚ), i + fuel = mag.length →
      sum = (if i = 0 then 0
        else ((mag.drop (winStart window (i - 1))).take
          (winCount window (i - 1))).sum) →
      runningAux mag window fuel i sum =
        (List.range' i fuel).map (fun k =>
          if winCount window k < 5 then none
          else some ((((mag.drop (winStart window k)).take
            (winCount window k)).sum) / ((winCount window k : ℕ) : ℚ))) := by
  intro fuel
  induction fuel with
  | zero => intro i sum _ _; rfl
  | succ m ih =>
    intro i sum hn hsum
    have hi : i < mag.length := by omega
    have hsum3 : (if window ≤ i then (sum + mag.getD i 0) - mag.getD (i - window) 0
        else sum + mag.getD i 0)
        = ((mag.drop (winStart window i)).take (winCount window i)).sum := by
      rw [windowSum_step mag window i hw hi, ← hsum]
      by_cases hfull : window ≤ i
      · rw [if_pos hfull, if_pos hfull]
      · rw [if_neg hfull, if_neg hfull]
        ring
    show (if min (i + 1) window < 5 then none
        else some ((if window ≤ i then (sum + mag.getD i 0) - mag.getD (i - window) 0
          else sum + mag.getD i 0) / ((min (i + 1) window : ℕ) : ℚ)))
      :: runningAux mag window m (i + 1)
        (if window ≤ i then (sum + mag.getD i 0) - mag.getD (i - window) 0
          else sum + mag.getD i 0) = _
    rw [hsum3, ih (i + 1)
      (((mag.drop (winStart window i)).take (winCount window i)).sum)
      (by omega) (by simp), List.range'_succ]
    rw [List.map_cons, ← winCount_eq_min window i hw]

/-- The running-sum formulation the specification describes produces,
value for value, the same rolling series as the per-index re-summation
that the source implements (in exact arithmetic). -/
theorem computeRollingMean_eq_runningSum (accel : List AccelSample)
    (windowSeconds : ℚ) :
    rollingRunningSum accel windowSeconds
      = (computeRollingMean accel windowSeconds).1 := by
  unfold rollingRunningSum computeRollingMean
  have hw : 1 ≤ (max 10 (jsRound (windowSeconds *
      ((accel.length : ℚ) / ((accel.getLastD default).timestamp -
        (accel.headD default).timestamp))))).toNat := by
    have h10 : (10 : ℤ) ≤ max 10 (jsRound (windowSeconds *
        ((accel.length : ℚ) / ((accel.getLastD default).timestamp -
          (accel.headD default).timestamp)))) := le_max_left _ _
    omega
  rw [runningAux_eq (accel.map (·.mag)) _ hw accel.length 0 0
    (by simp) (by simp)]
  rw [show List.range' 0 accel.length = List.range accel.length from
    (List.range_eq_range' accel.length).symm]
  rfl

/-! ### CompactCurvePayload decoder (curve-decoder.ts) -/

namespace Payload

/-- A decoded sample record: four 32-bit little-endian words (the bit
patterns of the float32 fields `timestamp, x, y, z`). Working on the bit
patterns makes "equal within 32-bit float precision" exact equality. -/
structure PSample where
  timestamp : ℕ
  x : ℕ
  y : ℕ
  z : ℕ
deriving DecidableEq

/-- The decoder result: acceleration samples then gyroscope samples. -/
structure DecodedCurves where
  accel : List PSample
  gyro : List PSample
deriving DecidableEq

/-- The decoder failure modes: the two explicit `throw`s of
`decodeCompactCurvePayload` and the `RangeError` a `DataView` read past
the end of the buffer raises. -/
inductive DecodeErr where
  | tooShort (n : ℕ)
  | unknownVersion (v : ℕ)
  | outOfRange
deriving DecidableEq

/-- `DataView.getFloat32(off, true)` modelled on the byte list: the
little-endian 32-bit word at `off`, or `none` past the end. -/
def readW32 (data : List ℕ) (off : ℕ) : Option ℕ :=
  match data[off]?, data[off+1]?, data[off+2]?, data[off+3]? with
  | some b0, some b1, some b2, some b3 =>
    some (b0 + 256 * b1 + 65536 * b2 + 16777216 * b3)
  | _, _, _, _ => none

/-- One 16-byte record read of `readSamples`. -/
def readSample (data : List ℕ) (off : ℕ) : Option PSample :=
  match readW32 data off, readW32 data (off + 4), readW32 data (off + 8),
      readW32 data (off + 12) with
  | some t, some x, some y, some z => some ⟨t, x, y, z⟩
  | _, _, _, _ => none

/-- Port of `readSamples` (curve-decoder.ts): read `count` consecutive
16-byte records starting at `off`, advancing the offset by 16 per record;
an out-of-range read aborts with an error. -/
def readSamples (data : List ℕ) : ℕ → ℕ → Except DecodeErr (List PSample × ℕ)
  | 0, off => .ok ([], off)
  | k + 1, off =>
    match readSample data off with
    | none => .error .outOfRange
    | some s =>
      match readSamples data k (off + 16) with
      | .error e => .error e
      | .ok (l, o) => .ok (s :: l, o)

/-- `DataView.getUint16(off, true)` on an in-range offset. -/
def u16 (data : List ℕ) (off : ℕ) : ℕ :=
  data.getD off 0 + 256 * data.getD (off + 1) 0

/-- Port of the body of `decodeCompactCurvePayload` (curve-decoder.ts)
after decompression. -/
def decodeBuf (data : List ℕ) : Except DecodeErr DecodedCurves :=
  if data.length < 9 then .error (.tooShort data.length)
  else
    let version := data.getD 0 0
    if version < 1 ∨ 3 < version then .error (.unknownVersion version)
    else
      let accelCount := u16 data 1
      let gyroCount := u16 data 3
      let offset : ℕ := if 3 ≤ version then 9 else 5
      match readSamples data accelCount offset with
      | .error e => .error e
      | .ok (accel, off2) =>
        match readSamples data gyroCount off2 with
        | .error e => .error e
        | .ok (gyro, _) => .ok ⟨accel, gyro⟩

/-- Port of `decodeCompactCurvePayload` (curve-decoder.ts): raw-DEFLATE
decompression (the external `pako.inflateRaw`, abstracted as a parameter)
followed by the header checks and record reads. -/
def decodeCompactCurvePayload (inflate : List ℕ → List ℕ)
    (compressed : List ℕ) : Except DecodeErr DecodedCurves :=
  decodeBuf (inflate compressed)

/-- The total in-range word read used to state what a successful record
read returns. -/
def w32At (data : List ℕ) (off : ℕ) : ℕ :=
  data.getD off 0 + 256 * data.getD (off + 1) 0 + 65536 * data.getD (off + 2) 0
    + 16777216 * data.getD (off + 3) 0

/-- The sample stored in the 16-byte record at `off`. -/
def sampleAt (data : List ℕ) (off : ℕ) : PSample :=
  ⟨w32At data off, w32At data (off + 4), w32At data (off + 8),
    w32At data (off + 12)⟩

lemma readW32_eq (data : List ℕ) (off : ℕ) (h : off + 4 ≤ data.length) :
    readW32 data off = some (w32At data off) := by
  have h0 : off < data.length := by omega
  have h1 : off + 1 < data.length := by omega
  have h2 : off + 2 < data.length := by omega
  have h3 : off + 3 < data.length := by omega
  unfold readW32 w32At
  simp only [List.getD_eq_getElem?_getD]
  rw [List.getElem?_eq_getElem h0, List.getElem?_eq_getElem h1,
    List.getElem?_eq_getElem h2, List.getElem?_eq_getElem h3]
  simp

lemma readW32_none (data : List ℕ) (off : ℕ) (h : data.length < off + 4) :
    readW32 data off = none := by
  unfold readW32
  rw [List.getElem?_eq_none (show data.length ≤ off + 3 by omega)]
  cases data[off]? <;> cases data[off+1]? <;> cases data[off+2]? <;> rfl

lemma readSample_eq (data : List ℕ) (off : ℕ) (h : off + 16 ≤ data.length) :
    readSample data off = some (sampleAt data off) := by
  unfold readSample sampleAt
  rw [readW32_eq data off (by omega), readW32_eq data (off + 4) (by omega),
    readW32_eq data (off + 8) (by omega), readW32_eq data (off + 12) (by omega)]

lemma readSample_none (data : List ℕ) (off : ℕ) (h : data.length < off + 16) :
    readSample data off = none := by
  unfold readSample
  rw [readW32_none data (off + 12) (by omega)]
  cases readW32 data off <;> cases readW32 data (off + 4) <;>
    cases readW32 data (off + 8) <;> rfl

lemma readSamples_ok (data : List ℕ) :
    ∀ (k off : ℕ), off + 16 * k ≤ data.length →
      readSamples data k off =
        .ok ((List.range k).map (fun j => sampleAt data (off + 16 * j)),
          off + 16 * k) := by
  intro k
  induction k with
  | zero => intro off _; simp [readSamples]
  | succ m ih =>
    intro off h
    unfold readSamples
    rw [readSample_eq data off (by omega), ih (off + 16) (by omega)]
    have hlist : sampleAt data off ::
        (List.range m).map (fun j => sampleAt data (off + 16 + 16 * j)) =
        (List.range (m + 1)).map (fun j => sampleAt data (off + 16 * j)) := by
      rw [List.range_succ_eq_map, List.map_cons, List.map_map]
      refine congrArg₂ _ (by simp) ?_
      apply List.map_congr_left
      intro j _
      simp only [Function.comp]
      congr 1
      omega
    have harith : off + 16 + 16 * m = off + 16 * (m + 1) := by ring
    simp only [hlist, harith]

lemma readSamples_err (data : List ℕ) :
    ∀ (k off : ℕ), 1 ≤ k → data.length < off + 16 * k →
      readSamples data k off = .error .outOfRange := by
  intro k
  induction k with
  | zero => intro off h1 _; omega
  | succ m ih =>
    intro off _ h2
    unfold readSamples
    by_cases hs : off + 16 ≤ data.length
    · rw [readSample_eq data off hs, ih (off + 16) (by omega) (by omega)]
    · rw [readSample_none data off (by omega)]

/-- Modelled from the spec: the repository only decodes
CompactCurvePayload blobs (the encoder lives in the recording
application), so the encoder is written from the documented layout. The
four bytes of one little-endian 32-bit word. -/
def w32bytes (w : ℕ) : List ℕ :=
  [w % 256, w / 256 % 256, w / 65536 % 256, w / 16777216 % 256]

/-- Modelled from the spec: the two bytes of one little-endian 16-bit
field. -/
def u16bytes (k : ℕ) : List ℕ := [k % 256, k / 256 % 256]

/-- Modelled from the spec: one 16-byte sample record, four little-endian
32-bit words `(timestamp, x, y, z)`. -/
def encodeSample (s : PSample) : List ℕ :=
  w32bytes s.timestamp ++ w32bytes s.x ++ w32bytes s.y ++ w32bytes s.z

/-- Modelled from the spec: the CompactCurvePayload layout: version byte,
`accelCount` and `gyroCount` as u16 LE (header length 5 for v1/2), for
version 3 the additional `smoothedCount`/`cycleCount` fields (zero here,
header length 9), then the acceleration records followed by the gyroscope
records, 16 bytes each. -/
def encodePayload (version : ℕ) (accel gyro : List PSample) : List ℕ :=
  [version] ++ u16bytes accel.length ++ u16bytes gyro.length
    ++ (if 3 ≤ version then [0, 0, 0, 0] else [])
    ++ accel.flatMap encodeSample ++ gyro.flatMap encodeSample

lemma length_encodeSample (s : PSample) : (encodeSample s).length = 16 := rfl

lemma length_flatMap_encodeSample (l : List PSample) :
    (l.flatMap encodeSample).length = 16 * l.length := by
  induction l with
  | nil => rfl
  | cons s ss ih =>
    rw [List.flatMap_cons, List.length_append, length_encodeSample, ih,
      List.length_cons]
    ring

lemma getD_append_right (pre l2 : List ℕ) (j : ℕ) :
    (pre ++ l2).getD (pre.length + j) 0 = l2.getD j 0 := by
  rw [List.getD_eq_getElem?_getD, List.getD_eq_getElem?_getD,
    List.getElem?_append_right (by omega)]
  congr 2
  omega

lemma w32At_encode (data pre rest : List ℕ) (w off : ℕ)
    (hdata : data = pre ++ (w32bytes w ++ rest)) (hoff : off = pre.length)
    (hw : w < 4294967296) :
    w32At data off = w := by
  subst hdata hoff
  unfold w32At
  have h0 := getD_append_right pre (w32bytes w ++ rest) 0
  have h1 := getD_append_right pre (w32bytes w ++ rest) 1
  have h2 := getD_append_right pre (w32bytes w ++ rest) 2
  have h3 := getD_append_right pre (w32bytes w ++ rest) 3
  rw [Nat.add_zero] at h0
  rw [h0, h1, h2, h3]
  unfold w32bytes
  simp only [List.cons_append, List.getD_cons_zero, List.getD_cons_succ]
  omega

lemma sampleAt_encode (data pre rest : List ℕ) (s : PSample) (off : ℕ)
    (hdata : data = pre ++ (encodeSample s ++ rest)) (hoff : off = pre.length)
    (hs : s.timestamp < 4294967296 ∧ s.x < 4294967296 ∧ s.y < 4294967296
      ∧ s.z < 4294967296) :
    sampleAt data off = s := by
  obtain ⟨h1, h2, h3, h4⟩ := hs
  unfold sampleAt
  have e1 : w32At data off = s.timestamp := by
    apply w32At_encode data pre
      (w32bytes s.x ++ w32bytes s.y ++ w32bytes s.z ++ rest) s.timestamp off
      ?_ hoff h1
    rw [hdata]
    unfold encodeSample
    simp [List.append_assoc]
  have e2 : w32At data (off + 4) = s.x := by
    apply w32At_encode data (pre ++ w32bytes s.timestamp)
      (w32bytes s.y ++ w32bytes s.z ++ rest) s.x (off + 4)
      ?_ ?_ h2
    · rw [hdata]
      unfold encodeSample
      simp [List.append_assoc]
    · rw [hoff]
      simp [w32bytes]
  have e3 : w32At data (off + 8) = s.y := by
    apply w32At_encode data (pre ++ w32bytes s.timestamp ++ w32bytes s.x)
      (w32bytes s.z ++ rest) s.y (off + 8)
      ?_ ?_ h3
    · rw [hdata]
      unfold encodeSample
      simp [List.append_assoc]
    · rw [hoff]
      simp [w32bytes]
  have e4 : w32At data (off + 12) = s.z := by
    apply w32At_encode data
      (pre ++ w32bytes s.timestamp ++ w32bytes s.x ++ w32bytes s.y)
      rest s.z (off + 12)
      ?_ ?_ h4
    · rw [hdata]
      unfold encodeSample
      simp [List.append_assoc]
    · rw [hoff]
      simp [w32bytes]
  rw [e1, e2, e3, e4]

lemma readSamples_encode :
    ∀ (samples : List PSample) (pre rest : List ℕ),
      (∀ s ∈ samples, s.timestamp < 4294967296 ∧ s.x < 4294967296
        ∧ s.y < 4294967296 ∧ s.z < 4294967296) →
      readSamples (pre ++ (samples.flatMap encodeSample ++ rest))
          samples.length pre.length
        = .ok (samples, pre.length + 16 * samples.length) := by
  intro samples
  induction samples with
  | nil => intro pre rest _; simp [readSamples]
  | cons s ss ih =>
    intro pre rest h
    have hdata : pre ++ ((s :: ss).flatMap encodeSample ++ rest)
        = pre ++ (encodeSample s ++ (ss.flatMap encodeSample ++ rest)) := by
      simp [List.flatMap_cons, List.append_assoc]
    rw [List.length_cons, hdata]
    unfold readSamples
    have hinr : pre.length + 16 ≤
        (pre ++ (encodeSample s ++ (ss.flatMap encodeSample ++ rest))).length := by
      simp [length_encodeSample]
    rw [readSample_eq _ pre.length hinr]
    rw [sampleAt_encode _ pre (ss.flatMap encodeSample ++ rest) s pre.length
      rfl rfl (h s (by simp))]
    have hreassoc : pre ++ (encodeSample s ++ (ss.flatMap encodeSample ++ rest))
        = (pre ++ encodeSample s) ++ (ss.flatMap encodeSample ++ rest) := by
      simp [List.append_assoc]
    have hoff2 : pre.length + 16 = (pre ++ encodeSample s).length := by
      simp [length_encodeSample]
    rw [hreassoc, hoff2,
      ih (pre ++ encodeSample s) rest (fun t ht => h t (by simp [ht]))]
    have : (pre ++ encodeSample s).length + 16 * ss.length
        = pre.length + 16 * (ss.length + 1) := by
      simp [length_encodeSample]
      ring
    simp only [this]

/-- C6: Decode failure modes: a decompressed buffer shorter than 9 bytes
fails with the too-short error, and a buffer whose version byte is not in
{1, 2, 3} fails with the unknown-version error; in particular a 5-byte
buffer and a version byte of 4 are rejected. -/
theorem decode_failure_spec :
    (∀ data : List ℕ, data.length < 9 →
      decodeCompactCurvePayload id data = .error (.tooShort data.length))
    ∧ (∀ data : List ℕ, 9 ≤ data.length →
        ¬(1 ≤ data.getD 0 0 ∧ data.getD 0 0 ≤ 3) →
        decodeCompactCurvePayload id data =
          .error (.unknownVersion (data.getD 0 0)))
    ∧ decodeCompactCurvePayload id (List.replicate 5 0) = .error (.tooShort 5)
    ∧ decodeCompactCurvePayload id (4 :: List.replicate 8 0) =
        .error (.unknownVersion 4) := by
  refine ⟨?_, ?_, rfl, rfl⟩
  · intro data h
    simp only [decodeCompactCurvePayload, id, decodeBuf]
    rw [if_pos h]
  · intro data h9 hv
    simp only [decodeCompactCurvePayload, id, decodeBuf]
    rw [if_neg (by omega), if_pos (by omega)]

/-- Witness for C6: both failure families applied at concrete buffers. -/
theorem decode_failure_spec_witness :
    decodeCompactCurvePayload id [0, 0, 0] = .error (.tooShort 3)
    ∧ decodeCompactCurvePayload id (7 :: List.replicate 8 0) =
        .error (.unknownVersion 7) :=
  ⟨decode_failure_spec.1 [0, 0, 0] (by decide),
   decode_failure_spec.2.1 (7 :: List.replicate 8 0) (by decide) (by decide)⟩

/-- C10: Decoder totality on truncated buffers: once the header checks
pass, a buffer holding at least `headerLen + 16·(accelCount + gyroCount)`
bytes decodes to exactly `accelCount` acceleration samples followed by
exactly `gyroCount` gyroscope samples read from consecutive 16-byte
records, and a shorter buffer fails with the out-of-range read error:
no truncated or padded sample list is ever returned. -/
theorem decode_totality_spec (data : List ℕ)
    (version accelCount gyroCount headerLen : ℕ)
    (h9 : 9 ≤ data.length)
    (hv : version = data.getD 0 0) (h1 : 1 ≤ version) (h3 : version ≤ 3)
    (hac : accelCount = u16 data 1) (hgc : gyroCount = u16 data 3)
    (hhl : headerLen = if 3 ≤ version then 9 else 5) :
    (headerLen + 16 * (accelCount + gyroCount) ≤ data.length →
      decodeCompactCurvePayload id data = .ok
        ⟨(List.range accelCount).map
            (fun j => sampleAt data (headerLen + 16 * j)),
          (List.range gyroCount).map
            (fun j => sampleAt data (headerLen + 16 * accelCount + 16 * j))⟩)
    ∧ (data.length < headerLen + 16 * (accelCount + gyroCount) →
      decodeCompactCurvePayload id data = .error .outOfRange) := by
  subst hv hac hgc
  have h59 : headerLen ≤ 9 := by
    rw [hhl]
    split <;> omega
  have hver : ¬(data.getD 0 0 < 1 ∨ 3 < data.getD 0 0) := by omega
  constructor
  · intro h
    simp only [decodeCompactCurvePayload, id, decodeBuf]
    rw [if_neg (by omega), if_neg hver, ← hhl]
    simp only [readSamples_ok data (u16 data 1) headerLen (by omega),
      readSamples_ok data (u16 data 3) (headerLen + 16 * u16 data 1)
        (by omega)]
  · intro h
    simp only [decodeCompactCurvePayload, id, decodeBuf]
    rw [if_neg (by omega), if_neg hver, ← hhl]
    by_cases hfirst : headerLen + 16 * u16 data 1 ≤ data.length
    · simp only [readSamples_ok data (u16 data 1) headerLen hfirst,
        readSamples_err data (u16 data 3) (headerLen + 16 * u16 data 1)
          (by omega) (by omega)]
    · simp only [readSamples_err data (u16 data 1) headerLen (by omega)
        (by omega)]

/-- Witness for C10: a complete version-1 buffer with one acceleration
record decodes to that record, and the same buffer truncated by one byte
fails with the out-of-range error. -/
theorem decode_totality_spec_witness :
    decodeCompactCurvePayload id
        ([1, 1, 0, 0, 0] ++ List.replicate 16 0) =
      .ok ⟨[sampleAt ([1, 1, 0, 0, 0] ++ List.replicate 16 0) 5], []⟩
    ∧ decodeCompactCurvePayload id ([1, 1, 0, 0, 0] ++ List.replicate 15 0) =
      .error .outOfRange := by
  constructor
  · have h := (decode_totality_spec ([1, 1, 0, 0, 0] ++ List.replicate 16 0)
      1 1 0 5 (by decide) (by decide) (by decide) (by decide) (by decide)
      (by decide) (by decide)).1 (by decide)
    simpa using h
  · exact (decode_totality_spec ([1, 1, 0, 0, 0] ++ List.replicate 15 0)
      1 1 0 5 (by decide) (by decide) (by decide) (by decide) (by decide)
      (by decide) (by decide)).2 (by decide)

lemma decodeBuf_encode (version : ℕ) (accel gyro : List PSample)
    (h1 : 1 ≤ version) (h3 : version ≤ 3)
    (hna : accel.length < 65536) (hng : gyro.length < 65536)
    (hw : ∀ s ∈ accel ++ gyro, s.timestamp < 4294967296 ∧ s.x < 4294967296
      ∧ s.y < 4294967296 ∧ s.z < 4294967296)
    (hmin : version = 3 ∨ 1 ≤ accel.length + gyro.length) :
    decodeBuf (encodePayload version accel gyro) = .ok ⟨accel, gyro⟩ := by
  have hwa : ∀ s ∈ accel, s.timestamp < 4294967296 ∧ s.x < 4294967296
      ∧ s.y < 4294967296 ∧ s.z < 4294967296 := fun s hs => hw s (by simp [hs])
  have hwg : ∀ s ∈ gyro, s.timestamp < 4294967296 ∧ s.x < 4294967296
      ∧ s.y < 4294967296 ∧ s.z < 4294967296 := fun s hs => hw s (by simp [hs])
  by_cases hv3 : 3 ≤ version
  · have hdata : encodePayload version accel gyro
        = [version, accel.length % 256, accel.length / 256 % 256,
           gyro.length % 256, gyro.length / 256 % 256, 0, 0, 0, 0]
          ++ (accel.flatMap encodeSample
            ++ (gyro.flatMap encodeSample ++ ([] : List ℕ))) := by
      unfold encodePayload u16bytes
      rw [if_pos hv3]
      simp [List.append_assoc]
    have hlen : (encodePayload version accel gyro).length
        = 9 + 16 * accel.length + 16 * gyro.length := by
      rw [hdata]
      simp only [List.length_append, length_flatMap_encodeSample,
        List.length_cons, List.length_nil]
      omega
    have hv0 : (encodePayload version accel gyro).getD 0 0 = version := by
      rw [hdata]
      rfl
    have hu1 : u16 (encodePayload version accel gyro) 1 = accel.length := by
      rw [hdata]
      unfold u16
      simp only [List.cons_append, List.getD_cons_succ, List.getD_cons_zero]
      omega
    have hu3 : u16 (encodePayload version accel gyro) 3 = gyro.length := by
      rw [hdata]
      unfold u16
      simp only [List.cons_append, List.getD_cons_succ, List.getD_cons_zero]
      omega
    have hr1 : readSamples (encodePayload version accel gyro) accel.length 9
        = .ok (accel, 9 + 16 * accel.length) := by
      have := readSamples_encode accel
        [version, accel.length % 256, accel.length / 256 % 256,
         gyro.length % 256, gyro.length / 256 % 256, 0, 0, 0, 0]
        (gyro.flatMap encodeSample ++ ([] : List ℕ)) hwa
      rw [← hdata] at this
      simpa using this
    have hr2 : readSamples (encodePayload version accel gyro) gyro.length
        (9 + 16 * accel.length) = .ok (gyro, 9 + 16 * accel.length
          + 16 * gyro.length) := by
      have hdata2 : encodePayload version accel gyro
          = ([version, accel.length % 256, accel.length / 256 % 256,
              gyro.length % 256, gyro.length / 256 % 256, 0, 0, 0, 0]
            ++ accel.flatMap encodeSample)
            ++ (gyro.flatMap encodeSample ++ ([] : List ℕ)) := by
        rw [hdata]
        simp [List.append_assoc]
      have hplen : ([version, accel.length % 256, accel.length / 256 % 256,
          gyro.length % 256, gyro.length / 256 % 256, 0, 0, 0, 0]
          ++ accel.flatMap encodeSample).length = 9 + 16 * accel.length := by
        simp only [List.length_append, length_flatMap_encodeSample,
          List.length_cons, List.length_nil]
      have := readSamples_encode gyro
        ([version, accel.length % 256, accel.length / 256 % 256,
          gyro.length % 256, gyro.length / 256 % 256, 0, 0, 0, 0]
          ++ accel.flatMap encodeSample)
        ([] : List ℕ) hwg
      rw [← hdata2, hplen] at this
      simpa using this
    unfold decodeBuf
    rw [if_neg (by omega), hv0, if_neg (by omega), hu1, hu3, if_pos hv3]
    simp only [hr1, hr2]
  · have hmin1 : 1 ≤ accel.length + gyro.length := by
      rcases hmin with hv | hc
      · omega
      · exact hc
    have hdata : encodePayload version accel gyro
        = [version, accel.length % 256, accel.length / 256 % 256,
           gyro.length % 256, gyro.length / 256 % 256]
          ++ (accel.flatMap encodeSample
            ++ (gyro.flatMap encodeSample ++ ([] : List ℕ))) := by
      unfold encodePayload u16bytes
      rw [if_neg hv3]
      simp [List.append_assoc]
    have hlen : (encodePayload version accel gyro).length
        = 5 + 16 * accel.length + 16 * gyro.length := by
      rw [hdata]
      simp only [List.length_append, length_flatMap_encodeSample,
        List.length_cons, List.length_nil]
      omega
    have hv0 : (encodePayload version accel gyro).getD 0 0 = version := by
      rw [hdata]
      rfl
    have hu1 : u16 (encodePayload version accel gyro) 1 = accel.length := by
      rw [hdata]
      unfold u16
      simp only [List.cons_append, List.getD_cons_succ, List.getD_cons_zero]
      omega
    have hu3 : u16 (encodePayload version accel gyro) 3 = gyro.length := by
      rw [hdata]
      unfold u16
      simp only [List.cons_append, List.getD_cons_succ, List.getD_cons_zero]
      omega
    have hr1 : readSamples (encodePayload version accel gyro) accel.length 5
        = .ok (accel, 5 + 16 * accel.length) := by
      have := readSamples_encode accel
        [version, accel.length % 256, accel.length / 256 % 256,
         gyro.length % 256, gyro.length / 256 % 256]
        (gyro.flatMap encodeSample ++ ([] : List ℕ)) hwa
      rw [← hdata] at this
      simpa using this
    have hr2 : readSamples (encodePayload version accel gyro) gyro.length
        (5 + 16 * accel.length) = .ok (gyro, 5 + 16 * accel.length
          + 16 * gyro.length) := by
      have hdata2 : encodePayload version accel gyro
          = ([version, accel.length % 256, accel.length / 256 % 256,
              gyro.length % 256, gyro.length / 256 % 256]
            ++ accel.flatMap encodeSample)
            ++ (gyro.flatMap encodeSample ++ ([] : List ℕ)) := by
        rw [hdata]
        simp [List.append_assoc]
      have hplen : ([version, accel.length % 256, accel.length / 256 % 256,
          gyro.length % 256, gyro.length / 256 % 256]
          ++ accel.flatMap encodeSample).length = 5 + 16 * accel.length := by
        simp only [List.length_append, length_flatMap_encodeSample,
          List.length_cons, List.length_nil]
      have := readSamples_encode gyro
        ([version, accel.length % 256, accel.length / 256 % 256,
          gyro.length % 256, gyro.length / 256 % 256]
          ++ accel.flatMap encodeSample)
        ([] : List ℕ) hwg
      rw [← hdata2, hplen] at this
      simpa using this
    unfold decodeBuf
    rw [if_neg (by omega), hv0, if_neg (by omega), hu1, hu3, if_neg hv3]
    simp only [hr1, hr2]

/-- C7 counterexample: the claim fails at version 1 with zero samples of
each kind: the encoded buffer is exactly the 5-byte v1 header, and the
decoder rejects any buffer shorter than 9 bytes before examining the
version, so the round trip returns a decode error instead of recovering
the (empty) sample lists. -/
theorem roundtrip_cex :
    decodeCompactCurvePayload id (encodePayload 1 [] [])
      = .error (.tooShort 5) := rfl

/-- C7 (amended): for every supported version and sample lists whose
encoding is at least 9 bytes long (version 3, or at least one sample
overall), raw-DEFLATE compression followed by `decodeCompactCurvePayload`
recovers the sample words and the two counts exactly. -/
theorem roundtrip_spec (inflate deflate : List ℕ → List ℕ)
    (hinv : ∀ b, inflate (deflate b) = b)
    (version : ℕ) (accel gyro : List PSample)
    (h1 : 1 ≤ version) (h3 : version ≤ 3)
    (hna : accel.length < 65536) (hng : gyro.length < 65536)
    (hw : ∀ s ∈ accel ++ gyro, s.timestamp < 4294967296 ∧ s.x < 4294967296
      ∧ s.y < 4294967296 ∧ s.z < 4294967296)
    (hmin : version = 3 ∨ 1 ≤ accel.length + gyro.length) :
    decodeCompactCurvePayload inflate (deflate (encodePayload version accel gyro))
      = .ok ⟨accel, gyro⟩ := by
  unfold decodeCompactCurvePayload
  rw [hinv]
  exact decodeBuf_encode version accel gyro h1 h3 hna hng hw hmin

/-- Witness for C7: a version-3 payload with one acceleration sample and
one gyroscope sample survives the round trip. -/
theorem roundtrip_spec_witness :
    decodeCompactCurvePayload id
        (id (encodePayload 3 [⟨1, 2, 3, 4⟩] [⟨5, 6, 7, 8⟩]))
      = .ok ⟨[⟨1, 2, 3, 4⟩], [⟨5, 6, 7, 8⟩]⟩ :=
  roundtrip_spec id id (fun _ => rfl) 3 [⟨1, 2, 3, 4⟩] [⟨5, 6, 7, 8⟩]
    (by decide) (by decide) (by decide) (by decide) (by decide) (Or.inl rfl)

end Payload

end SprintZero
